import Mathlib

/-!
Verification of the Agentic-Kernel orchestration core.

This file gives a shallow embedding, in Lean 4, of the parts of the
Agentic-Kernel repository that the claims under scrutiny talk about:

* `src/agentic_kernel/orchestrator/workflow_executor.py`
  (`WorkflowExecutor.execute_workflow`, `_execute_step`,
  `_get_executable_steps`),
* `src/agentic_kernel/orchestrator/workflow_planner.py`
  (`WorkflowPlanner.replan_workflow`),
* `src/agentic_kernel/orchestrator/agent_manager.py`
  (`AgentManager.select_agent_for_task`),
* `src/agentic_kernel/communication/protocol.py`
  (`send_message`, `_validate_message`),
* `src/agentic_kernel/agents/core/consensus.py` together with the
  consensus tally described by the specification,
* `src/agentic_kernel/agents/core/feedback.py`
  (`FeedbackMixin.send_feedback`, `process_feedback`),
* `src/agentic_kernel/ledgers.py` (`ProgressLedger.get_success_rate`).

Python `float` ratings and ratios are modelled as rationals (`ℚ`); Python
lists as Lean lists; Python dictionaries as association lists in insertion
order.  Asynchronous effects (history recording, logging) are irrelevant to
the claims and are omitted; the control flow of the embedded functions
follows the Python source line by line.
-/

namespace AgenticKernel

/-- A workflow step, as used by the executor and the planner.  The Python
`WorkflowStep` carries a full `Task` object; the orchestration code only
ever reads `step.task.name`, so the task is flattened to its name here.
`dependencies`, `parallel` and `condition` correspond to the fields of the
Python dataclass. -/
structure WorkflowStep where
  name : String
  dependencies : List String
  parallel : Bool := false
  condition : Option String := none
deriving DecidableEq, Repr

/-- `WorkflowExecutor._get_executable_steps`: keep the steps whose name is
not in `completed_steps + failed_steps`, all of whose dependencies are in
`completed_steps`, and none of whose dependencies are in `failed_steps`
(`workflow_executor.py`, lines 272-306). -/
def getExecutableSteps (steps : List WorkflowStep)
    (completedSteps failedSteps : List String) : List WorkflowStep :=
  let handledSteps := completedSteps ++ failedSteps
  steps.filter fun step =>
    !(handledSteps.contains step.name) &&
    (step.dependencies.all fun dep => completedSteps.contains dep) &&
    !(step.dependencies.any fun dep => failedSteps.contains dep)

/-- The step-list transformation inside `WorkflowPlanner.replan_workflow`
(`workflow_planner.py`, lines 135-158): completed steps are copied as-is,
failed steps are dropped, and every other step is rebuilt with the failed
names filtered out of its dependency list. -/
def replanSteps (steps : List WorkflowStep)
    (completedSteps failedSteps : List String) : List WorkflowStep :=
  match steps with
  | [] => []
  | step :: rest =>
    if completedSteps.contains step.name then
      step :: replanSteps rest completedSteps failedSteps
    else if failedSteps.contains step.name then
      replanSteps rest completedSteps failedSteps
    else
      { step with
        dependencies :=
          step.dependencies.filter fun dep => !failedSteps.contains dep } ::
        replanSteps rest completedSteps failedSteps

/-- A progress-ledger entry (`ledgers.py`, `ProgressEntry`); only the fields
read by `get_success_rate` and `get_failed_tasks` are kept. -/
structure ProgressEntry where
  task_id : String
  status : String
  error : Option String := none
deriving DecidableEq, Repr

/-- The progress ledger (`ledgers.py`, `ProgressLedger`): a dictionary from
task id to entry, modelled as an association list in insertion order. -/
structure ProgressLedger where
  entries : List (String × ProgressEntry)
deriving DecidableEq, Repr

/-- `ProgressLedger.get_success_rate` (`ledgers.py`, lines 189-198): the
number of entries with status `"completed"` divided by the total number of
entries, or `0.0` for an empty ledger. -/
def getSuccessRate (ledger : ProgressLedger) : ℚ :=
  let completed :=
    (ledger.entries.filter fun e => e.2.status == "completed").length
  let total := ledger.entries.length
  if total > 0 then (completed : ℚ) / (total : ℚ) else 0

/-- Modelled from the spec: the `FeedbackSeverity` enum lives in the
`communication/feedback.py` module, which is not part of the sources at
hand; the spec names its three levels high / medium / low. -/
inductive FeedbackSeverity where
  | high
  | medium
  | low
deriving DecidableEq, Repr

/-- Modelled from the spec: the `LearningStrategy` enum lives in the
`communication/feedback.py` module, which is not part of the sources at
hand; the spec names the strategies "immediate adjustment",
"reinforcement" and "gradual adjustment". -/
inductive LearningStrategy where
  | immediateAdjustment
  | reinforcement
  | gradualAdjustment
deriving DecidableEq, Repr

/-- The severity computed for the content of an outgoing feedback message
(`feedback.py`, lines 357-359): `HIGH` if the rating is below `0.3`, else
`MEDIUM` if below `0.7`, else `LOW`. -/
def feedbackSeverity (rating : ℚ) : FeedbackSeverity :=
  if rating < 3/10 then .high
  else if rating < 7/10 then .medium
  else .low

/-- The rating guard plus severity bucket of `FeedbackMixin.send_feedback`
(`feedback.py`, lines 342-360): a rating outside `[0, 1]` raises
`ValueError("Rating must be between 0.0 and 1.0")`; otherwise the message
content carries the bucketed severity. -/
def sendFeedbackSeverity (rating : ℚ) : Except String FeedbackSeverity :=
  if !(0 ≤ rating && rating ≤ 1) then
    .error "Rating must be between 0.0 and 1.0"
  else
    .ok (feedbackSeverity rating)

/-- The learning strategy applied by `FeedbackMixin.process_feedback`
(`feedback.py`, lines 119-142): ratings below `0.4` get
`IMMEDIATE_ADJUSTMENT`, ratings at least `0.7` get `REINFORCEMENT`, and
everything in between gets `GRADUAL_ADJUSTMENT`. -/
def processFeedbackStrategy (rating : ℚ) : LearningStrategy :=
  if rating < 4/10 then .immediateAdjustment
  else if rating ≥ 7/10 then .reinforcement
  else .gradualAdjustment

/-- A Python value as far as `_execute_step` manipulates one: strings,
numbers, dictionaries (association lists in insertion order), and opaque
non-dictionary values returned by an agent. -/
inductive Val where
  | str : String → Val
  | num : ℚ → Val
  | dict : List (String × Val) → Val
  | raw : String → Val

/-- Python dictionary assignment `d[k] = v`: replace the value in place if
the key exists, otherwise append the new pair. -/
def dictSet (d : List (String × Val)) (k : String) (v : Val) :
    List (String × Val) :=
  match d with
  | [] => [(k, v)]
  | (k', v') :: rest =>
    if k' == k then (k', v) :: rest else (k', v') :: dictSet rest k v

/-- Python `d.get(k, default)` on an association list. -/
def dictGet (d : List (String × Val)) (k : String) (default : Val) : Val :=
  match d.find? (fun p => p.1 == k) with
  | some p => p.2
  | none => default

/-- Python `k in d` on an association list. -/
def dictHasKey (d : List (String × Val)) (k : String) : Bool :=
  d.any fun p => p.1 == k

/-- The error dictionary built by the `except` clause of `_execute_step`
(`workflow_executor.py`, lines 264-270). -/
def stepErrorResult (taskName msg : String) : Val :=
  .dict [("status", .str "error"), ("error", .str msg),
         ("task_name", .str taskName)]

/-- `WorkflowExecutor._execute_step` (`workflow_executor.py`, lines
226-270), with its effectful collaborators passed in explicitly:
`selection` is the outcome of `agent_manager.select_agent_for_task`
(which may raise, or return no agent, or return an agent), `agentExec`
is the agent's `execute` (which may raise or return any value), and
`execTime` is the measured wall-clock duration.  Mutating `metrics`
when `result["metrics"]` is not a dictionary raises a `TypeError`,
which the surrounding `try` also converts into an error dictionary. -/
def executeStep {α : Type} (taskName : String)
    (selection : Except String (Option α))
    (agentExec : α → Except String Val)
    (execTime : ℚ) : Val :=
  match selection with
  | .error e => stepErrorResult taskName e
  | .ok none =>
    .dict [("status", .str "error"),
           ("error", .str ("No suitable agent found for task: " ++ taskName))]
  | .ok (some agent) =>
    match agentExec agent with
    | .error e => stepErrorResult taskName e
    | .ok rawResult =>
      let result : List (String × Val) :=
        match rawResult with
        | .dict d => d
        | v => [("output", v)]
      match dictGet result "metrics" (.dict []) with
      | .dict metrics =>
        let metrics := dictSet metrics "execution_time" (.num execTime)
        let result := dictSet result "metrics" (.dict metrics)
        let result :=
          if dictHasKey result "status" then result
          else dictSet result "status" (.str "success")
        .dict result
      | _ =>
        stepErrorResult taskName "object does not support item assignment"

/-- Modelled from the spec: `AgentSelector.select_agent`
(`orchestrator/agent_selection.py` is not among the sources at hand).
Per the spec it scores the registered agents by capability match and
historical performance and "returns null (never throws) when no agent can
plausibly serve the task"; the scoring itself is abstracted into the
`canServe` predicate, and the selector returns the id of a matching
registered agent, or `none` when no registered agent matches. -/
def selectAgent (canServe : String → Bool) (agents : List String) :
    Option String :=
  agents.find? canServe

/-- `AgentManager.select_agent_for_task` (`agent_manager.py`, lines 76-98):
ask the selector for an agent id; a falsy id (Python `if not agent_id`,
i.e. `None` or the empty string) yields `None`, otherwise the registered
agent with that id is looked up in the registry dictionary. -/
def selectAgentForTask {α : Type} (selectorResult : Option String)
    (agents : List (String × α)) : Option α :=
  match selectorResult with
  | none => none
  | some agentId =>
    if agentId == "" then none
    else (agents.find? fun p => p.1 == agentId).map Prod.snd

/-- The message types distinguished by `_validate_message`
(`protocol.py`, lines 453-468). -/
inductive MessageType where
  | taskRequest
  | query
  | other : String → MessageType
deriving DecidableEq, Repr

/-- A protocol message (the `Message` dataclass constructed by
`send_message` in `protocol.py`, lines 280-288); the fields are Python
values so that ill-typed contents are representable. -/
structure Message where
  message_id : Val
  message_type : MessageType
  sender : Val
  recipient : Val
  content : Val

/-- Modelled from the spec: `ErrorHandler.validate_message`
(`communication/error_handler.py` is not among the sources at hand).
Per the spec, validation "checks required top-level fields (IDs, type,
content is a mapping)": every required field must be present with the
annotated type.  Here the check is specialised to the field-type tables
that `_validate_message` passes in: a required string field must be a
string and a required dictionary field must be a mapping. -/
def validateFields (d : List (String × Val)) (requiredStr : List String)
    (requiredDict : List String) : Bool :=
  (requiredStr.all fun k =>
    match dictGet d k (.raw "missing") with
    | .str _ => true
    | _ => false) &&
  (requiredDict.all fun k =>
    match dictGet d k (.raw "missing") with
    | .dict _ => true
    | _ => false)

/-- `CommunicationProtocol._validate_message` (`protocol.py`, lines
420-468): the top-level ids must be strings and `content` a mapping;
a `TASK_REQUEST` additionally needs `task_description` (a string) and
`parameters` (a mapping) in its content, and a `QUERY` needs a string
`query`.  Returns `true` when the message passes validation. -/
def validateMessage (message : Message) : Bool :=
  let messageDict :=
    [("message_id", message.message_id), ("sender", message.sender),
     ("recipient", message.recipient), ("content", message.content)]
  validateFields messageDict ["message_id", "sender", "recipient"]
    ["content"] &&
  (match message.message_type with
   | .taskRequest =>
     match message.content with
     | .dict c => validateFields c ["task_description"] ["parameters"]
     | _ => false
   | .query =>
     match message.content with
     | .dict c => validateFields c ["query"] []
     | _ => false
   | .other _ => true)

/-- The errors `send_message` can raise (`protocol.py`, lines 276-277 and
317-333). -/
inductive SendError where
  | validationError
  | deliveryError
deriving DecidableEq, Repr

/-- `CommunicationProtocol.send_message` (`protocol.py`, lines 240-335):
build the message, validate it when `validate` is set (re-raising
`MessageValidationError` before anything is published), then publish it to
the bus through the retry wrapper.  `publishFails` abstracts the retry
wrapper exhausting its attempts; `msgId` stands for the generated UUID.
The returned pair is the outcome together with the bus contents after the
call. -/
def sendMessage (msgId : String) (messageType : MessageType)
    (sender recipient content : Val) (validate : Bool)
    (publishFails : Bool) (bus : List Message) :
    Except SendError String × List Message :=
  let message : Message :=
    { message_id := .str msgId, message_type := messageType,
      sender := sender, recipient := recipient, content := content }
  if validate && !(validateMessage message) then
    (.error .validationError, bus)
  else if publishFails then
    (.error .deliveryError, bus)
  else
    (.ok msgId, bus ++ [message])

/-- Modelled from the spec: the majority tally of
`CollaborativeProtocol.get_consensus_result`
(`communication/collaborative_protocol.py` is not among the sources at
hand).  Per the spec, "`majority` = option with most votes (ties broken by
first-registered option)": walk the registered options in order and keep
the current best unless a later option has strictly more votes. -/
def majorityTally (options : List String) (votes : List String) :
    Option String :=
  match options with
  | [] => none
  | first :: rest =>
    some (rest.foldl
      (fun best opt => if votes.count opt > votes.count best then opt
                       else best)
      first)

/-- `WorkflowExecutor.max_inner_loop_iterations`
(`workflow_executor.py`, line 55). -/
def maxInnerLoopIterations : Nat := 10

/-- `WorkflowExecutor.reflection_threshold`
(`workflow_executor.py`, line 56). -/
def reflectionThreshold : ℚ := 7/10

/-- The executor's per-run bookkeeping inside `execute_workflow`
(`workflow_executor.py`, lines 89-92 and 114): the `completed_steps`,
`failed_steps` and `skipped_steps` name lists plus the
`inner_loop_iterations` counter. -/
structure ExecState where
  completed : List String
  failed : List String
  skipped : List String
  iterations : Nat
deriving DecidableEq, Repr

/-- The fresh state at the top of `execute_workflow`. -/
def initialExecState : ExecState :=
  { completed := [], failed := [], skipped := [], iterations := 0 }

/-- Python truthiness of `step.condition` in
`if step.condition and not ... evaluate_condition(step.condition)`
(`workflow_executor.py`, line 142): `None` and the empty string are falsy. -/
def condTruthy : Option String → Bool
  | none => false
  | some c => c ≠ ""

/-- The `for step in executable_steps` body of the inner loop
(`workflow_executor.py`, lines 140-168).  `evalCond` abstracts
`ConditionalBranchManager.evaluate_condition` (whose module
`condition_evaluator.py` is an external collaborator here) and
`execStatus` abstracts the status string of the `_execute_step` result;
both may depend on the current bookkeeping state, and the theorems below
quantify over them, so every behaviour of the real collaborators is
covered.  A truthy condition that evaluates false appends the step to
`skipped_steps`; otherwise the step executes and its name is appended to
`completed_steps` on status `"success"` and to `failed_steps` on any
other status. -/
def processSteps (evalCond : ExecState → String → Bool)
    (execStatus : ExecState → WorkflowStep → String) :
    List WorkflowStep → ExecState → ExecState
  | [], st => st
  | step :: rest, st =>
    if condTruthy step.condition &&
        !(evalCond st (step.condition.getD "")) then
      processSteps evalCond execStatus rest
        { st with skipped := st.skipped ++ [step.name] }
    else if execStatus st step == "success" then
      processSteps evalCond execStatus rest
        { st with completed := st.completed ++ [step.name] }
    else
      processSteps evalCond execStatus rest
        { st with failed := st.failed ++ [step.name] }

/-- One iteration of the inner `while` loop of `execute_workflow`
(`workflow_executor.py`, lines 115-181), from the
`inner_loop_iterations += 1` at the top to the replanning check at the
bottom.  `Sum.inl` is a `break` with the final state; `Sum.inr` continues
with the next iteration's state. -/
def innerLoopIter (plan : List WorkflowStep)
    (evalCond : ExecState → String → Bool)
    (execStatus : ExecState → WorkflowStep → String)
    (st : ExecState) : ExecState ⊕ ExecState :=
  let st := { st with iterations := st.iterations + 1 }
  let totalHandledSteps :=
    st.completed.length + st.failed.length + st.skipped.length
  if totalHandledSteps ≥ plan.length then .inl st
  else if st.iterations > plan.length * 2 then .inl st
  else
    let executableSteps := getExecutableSteps plan st.completed st.failed
    if executableSteps.isEmpty then .inl st
    else
      let st := processSteps evalCond execStatus executableSteps st
      let progressRatio : ℚ :=
        (st.completed.length : ℚ) / (plan.length : ℚ)
      if st.failed ≠ [] ∧ progressRatio < reflectionThreshold ∧
          st.iterations > 1 then .inl st
      else .inr st

/-- The inner `while inner_loop_iterations < self.max_inner_loop_iterations`
loop, driven by fuel; the fuel equals the loop bound, so the guard and the
fuel run out together. -/
def innerLoop (plan : List WorkflowStep)
    (evalCond : ExecState → String → Bool)
    (execStatus : ExecState → WorkflowStep → String) :
    Nat → ExecState → ExecState
  | 0, st => st
  | fuel + 1, st =>
    if st.iterations < maxInnerLoopIterations then
      match innerLoopIter plan evalCond execStatus st with
      | .inl final => final
      | .inr st' => innerLoop plan evalCond execStatus fuel st'
    else st

/-- The whole inner loop of `execute_workflow`, run from the fresh state. -/
def runInnerLoop (plan : List WorkflowStep)
    (evalCond : ExecState → String → Bool)
    (execStatus : ExecState → WorkflowStep → String) : ExecState :=
  innerLoop plan evalCond execStatus maxInnerLoopIterations initialExecState

/-- C10: for every `ProgressLedger` state, `get_success_rate` returns a
value in `[0, 1]`: the number of entries with status `"completed"` divided
by the total number of entries, and `0.0` when the ledger has no entries,
so the division is always guarded and never fails. -/
theorem getSuccessRate_bounds (ledger : ProgressLedger) :
    0 ≤ getSuccessRate ledger ∧ getSuccessRate ledger ≤ 1 ∧
    (ledger.entries = [] → getSuccessRate ledger = 0) ∧
    (ledger.entries ≠ [] → getSuccessRate ledger =
      ((ledger.entries.filter fun e => e.2.status == "completed").length : ℚ) /
        (ledger.entries.length : ℚ)) := by
  unfold getSuccessRate
  rcases h : ledger.entries with _ | ⟨e, rest⟩
  · simp
  · have hlen : (0 : ℚ) < ((e :: rest).length : ℚ) := by
      have : 0 < (e :: rest).length := by simp
      exact_mod_cast this
    have hle : ((e :: rest).filter fun x => x.2.status == "completed").length ≤
        (e :: rest).length := List.length_filter_le _ _
    constructor
    · simp only [if_pos (by simp : (e :: rest).length > 0)]
      positivity
    refine ⟨?_, by simp, fun _ => by simp⟩
    simp only [if_pos (by simp : (e :: rest).length > 0)]
    rw [div_le_one hlen]
    exact_mod_cast hle

/-- Witness for `getSuccessRate_bounds` on a two-entry ledger with one
completed task. -/
theorem getSuccessRate_bounds_witness :
    getSuccessRate ⟨[("t1", ⟨"t1", "completed", none⟩),
        ("t2", ⟨"t2", "failed", none⟩)]⟩ = (1 : ℚ) / 2 ∧
    getSuccessRate ⟨[("t1", ⟨"t1", "completed", none⟩),
        ("t2", ⟨"t2", "failed", none⟩)]⟩ ≤ 1 := by
  have h := getSuccessRate_bounds ⟨[("t1", ⟨"t1", "completed", none⟩),
    ("t2", ⟨"t2", "failed", none⟩)]⟩
  refine ⟨?_, h.2.1⟩
  have h4 := h.2.2.2 (by decide)
  rw [h4]
  norm_num [List.filter_cons, List.filter_nil,
    show ("failed" = "completed") = False by simp]

/-- C7: for every rating `r ∈ [0, 1]`, the outgoing feedback message's
severity is `high` exactly when `r < 0.3`, `medium` exactly when
`0.3 ≤ r < 0.7`, `low` otherwise, and `process_feedback` applies the
immediate-adjustment strategy exactly when `r < 0.4`, reinforcement
exactly when `r ≥ 0.7`, and gradual adjustment otherwise. -/
theorem feedback_severity_strategy_buckets (r : ℚ) (h0 : 0 ≤ r)
    (h1 : r ≤ 1) :
    sendFeedbackSeverity r = .ok (feedbackSeverity r) ∧
    (feedbackSeverity r = .high ↔ r < 3/10) ∧
    (feedbackSeverity r = .medium ↔ 3/10 ≤ r ∧ r < 7/10) ∧
    (feedbackSeverity r = .low ↔ 7/10 ≤ r) ∧
    (processFeedbackStrategy r = .immediateAdjustment ↔ r < 4/10) ∧
    (processFeedbackStrategy r = .reinforcement ↔ 7/10 ≤ r) ∧
    (processFeedbackStrategy r = .gradualAdjustment ↔
      4/10 ≤ r ∧ r < 7/10) := by
  unfold sendFeedbackSeverity feedbackSeverity processFeedbackStrategy
  split_ifs with hA hB hC hD hE hF hG hH hI hJ <;> simp_all <;> linarith

/-- Witness for `feedback_severity_strategy_buckets` at rating `1/2`. -/
theorem feedback_severity_strategy_buckets_witness :
    feedbackSeverity (1/2) = .medium ∧
    processFeedbackStrategy (1/2) = .gradualAdjustment := by
  have h := feedback_severity_strategy_buckets (1/2) (by norm_num)
    (by norm_num)
  exact ⟨h.2.2.1.mpr (by norm_num), h.2.2.2.2.2.2.mpr (by norm_num)⟩

/-- C2: for disjoint `completedSteps`/`failedSteps`, `replan_workflow`'s
new step list keeps every step named in `completedSteps` unchanged,
contains no step named in `failedSteps`, and keeps every other step with
the failed names removed from its dependency list; in particular, with
`completedSteps = [A]`, `failedSteps = [B]` and `C` depending on
`[A, B]`, the new plan is `[A, C]` with `C`'s dependencies reduced to
`[A]`. -/
theorem replanSteps_spec (steps : List WorkflowStep)
    (completedSteps failedSteps : List String)
    (hdisj : ∀ x ∈ completedSteps, x ∉ failedSteps) :
    (∀ s ∈ steps, s.name ∈ completedSteps →
      s ∈ replanSteps steps completedSteps failedSteps) ∧
    (∀ t ∈ replanSteps steps completedSteps failedSteps,
      t.name ∉ failedSteps) ∧
    (∀ s ∈ steps, s.name ∉ completedSteps → s.name ∉ failedSteps →
      { s with dependencies :=
          s.dependencies.filter fun dep => !failedSteps.contains dep }
        ∈ replanSteps steps completedSteps failedSteps) ∧
    replanSteps [⟨"A", [], false, none⟩, ⟨"B", [], false, none⟩,
        ⟨"C", ["A", "B"], false, none⟩] ["A"] ["B"]
      = [⟨"A", [], false, none⟩, ⟨"C", ["A"], false, none⟩] := by
  refine ⟨?_, ?_, ?_, by decide⟩
  · induction steps with
    | nil => simp
    | cons st rest ih =>
      intro s hs hname
      rcases List.mem_cons.mp hs with rfl | hrest
      · rw [replanSteps, if_pos (List.elem_iff.mpr hname)]
        exact List.mem_cons_self _ _
      · have htail := ih s hrest hname
        rw [replanSteps]
        split_ifs with h1 h2
        · exact List.mem_cons_of_mem _ htail
        · exact htail
        · exact List.mem_cons_of_mem _ htail
  · induction steps with
    | nil => simp [replanSteps]
    | cons st rest ih =>
      intro t ht
      rw [replanSteps] at ht
      split_ifs at ht with h1 h2
      · rcases List.mem_cons.mp ht with rfl | hrest
        · exact hdisj _ (List.elem_iff.mp h1)
        · exact ih _ hrest
      · exact ih _ ht
      · rcases List.mem_cons.mp ht with rfl | hrest
        · simpa using fun h => h2 (List.elem_iff.mpr h)
        · exact ih _ hrest
  · induction steps with
    | nil => simp
    | cons st rest ih =>
      intro s hs hnc hnf
      rcases List.mem_cons.mp hs with rfl | hrest
      · rw [replanSteps,
          if_neg (fun h => hnc (List.elem_iff.mp h)),
          if_neg (fun h => hnf (List.elem_iff.mp h))]
        exact List.mem_cons_self _ _
      · have htail := ih s hrest hnc hnf
        rw [replanSteps]
        split_ifs with h1 h2
        · exact List.mem_cons_of_mem _ htail
        · exact htail
        · exact List.mem_cons_of_mem _ htail

/-- Witness for `replanSteps_spec` on the plan `[A, B, C]` of the claim's
example. -/
theorem replanSteps_spec_witness :
    replanSteps [⟨"A", [], false, none⟩, ⟨"B", [], false, none⟩,
        ⟨"C", ["A", "B"], false, none⟩] ["A"] ["B"]
      = [⟨"A", [], false, none⟩, ⟨"C", ["A"], false, none⟩] :=
  (replanSteps_spec [⟨"A", [], false, none⟩, ⟨"B", [], false, none⟩,
      ⟨"C", ["A", "B"], false, none⟩] ["A"] ["B"] (by decide)).2.2.2

/-- Every left fold of the "keep the strictly better option" step function
returns an element of `acc :: l` that attains the maximum of `g` and is
preceded only by strictly smaller elements. -/
theorem foldl_argmax_spec (g : String → ℕ) :
    ∀ (l : List String) (acc : String),
      ∃ l1 l2,
        acc :: l = l1 ++ (l.foldl (fun best opt =>
          if g opt > g best then opt else best) acc) :: l2 ∧
        (∀ o ∈ l1, g o < g (l.foldl (fun best opt =>
          if g opt > g best then opt else best) acc)) ∧
        (∀ o ∈ acc :: l, g o ≤ g (l.foldl (fun best opt =>
          if g opt > g best then opt else best) acc)) := by
  intro l
  induction l with
  | nil =>
    intro acc
    exact ⟨[], [], rfl, by simp, by simp⟩
  | cons x xs ih =>
    intro acc
    by_cases hx : g x > g acc
    · obtain ⟨l1, l2, heq, hlt, hle⟩ := ih x
      refine ⟨acc :: l1, l2, ?_, ?_, ?_⟩
      · simp only [List.foldl_cons, if_pos hx]
        rw [List.cons_append, ← heq]
      · intro o ho
        simp only [List.foldl_cons, if_pos hx]
        rcases List.mem_cons.mp ho with rfl | h
        · exact lt_of_lt_of_le hx (hle x (List.mem_cons_self _ _))
        · exact hlt o h
      · intro o ho
        simp only [List.foldl_cons, if_pos hx]
        rcases List.mem_cons.mp ho with rfl | h
        · exact le_of_lt (lt_of_lt_of_le hx (hle x (List.mem_cons_self _ _)))
        · exact hle o h
    · obtain ⟨l1, l2, heq, hlt, hle⟩ := ih acc
      have haccle : g acc ≤ g (xs.foldl (fun best opt =>
          if g opt > g best then opt else best) acc) :=
        hle acc (List.mem_cons_self _ _)
      rcases l1 with _ | ⟨h1, t1⟩
      · have hhead : xs.foldl (fun best opt =>
            if g opt > g best then opt else best) acc = acc := by
          have := congrArg List.head? heq
          simpa using this.symm
        have htail : xs = l2 := by
          have := congrArg List.tail heq
          simpa using this
        refine ⟨[], x :: l2, ?_, by simp, ?_⟩
        · simp only [List.foldl_cons, if_neg hx]
          rw [List.nil_append, hhead, htail]
        · intro o ho
          simp only [List.foldl_cons, if_neg hx]
          rcases List.mem_cons.mp ho with rfl | h
          · exact haccle
          · rcases List.mem_cons.mp h with rfl | h2
            · exact le_trans (le_of_not_lt hx) haccle
            · rw [← htail] at *
              exact hle o (List.mem_cons_of_mem _ h2)
      · have hacc : h1 = acc := by
          have := congrArg List.head? heq
          simpa using this.symm
        have htail : xs = t1 ++ (xs.foldl (fun best opt =>
            if g opt > g best then opt else best) acc) :: l2 := by
          have := congrArg List.tail heq
          simpa using this
        refine ⟨acc :: x :: t1, l2, ?_, ?_, ?_⟩
        · simp only [List.foldl_cons, if_neg hx]
          rw [List.cons_append, List.cons_append, ← htail]
        · intro o ho
          simp only [List.foldl_cons, if_neg hx]
          have hacclt : g acc < g (xs.foldl (fun best opt =>
              if g opt > g best then opt else best) acc) := by
            have := hlt h1 (List.mem_cons_self _ _)
            rwa [hacc] at this
          rcases List.mem_cons.mp ho with rfl | h
          · exact hacclt
          · rcases List.mem_cons.mp h with rfl | h2
            · exact lt_of_le_of_lt (le_of_not_lt hx) hacclt
            · exact hlt o (List.mem_cons_of_mem _ h2)
        · intro o ho
          simp only [List.foldl_cons, if_neg hx]
          rcases List.mem_cons.mp ho with rfl | h
          · exact haccle
          · rcases List.mem_cons.mp h with rfl | h2
            · exact le_trans (le_of_not_lt hx) haccle
            · exact hle o (List.mem_cons_of_mem _ h2)

/-- C6: the majority tally returns `none` only for an empty option list,
and otherwise returns the first-registered option with the most votes:
every registered option has at most as many votes, and every option
registered before the result has strictly fewer votes, so ties go to the
first-registered option; in particular options `[X, Y]` with votes
`[X, Y, X]` yield `X`, and the tied votes `[X, Y]` also yield `X`. -/
theorem majorityTally_first_registered_max :
    (∀ options votes : List String,
      (majorityTally options votes = none → options = []) ∧
      (∀ r, majorityTally options votes = some r →
        ∃ l1 l2, options = l1 ++ r :: l2 ∧
          (∀ o ∈ options, votes.count o ≤ votes.count r) ∧
          (∀ o ∈ l1, votes.count o < votes.count r))) ∧
    majorityTally ["X", "Y"] ["X", "Y", "X"] = some "X" ∧
    majorityTally ["X", "Y"] ["X", "Y"] = some "X" := by
  refine ⟨?_, by decide, by decide⟩
  intro options votes
  rcases options with _ | ⟨first, rest⟩
  · exact ⟨fun _ => rfl, fun r hr => by simp [majorityTally] at hr⟩
  · refine ⟨fun h => by simp [majorityTally] at h, ?_⟩
    intro r hr
    simp only [majorityTally, Option.some.injEq] at hr
    obtain ⟨l1, l2, heq, hlt, hle⟩ :=
      foldl_argmax_spec (fun s => votes.count s) rest first
    rw [hr] at heq hlt hle
    exact ⟨l1, l2, heq, fun o ho => hle o (heq ▸ ho), hlt⟩

/-- A key that is absent from a dictionary makes `dictGet` return its
default. -/
theorem dictGet_of_hasKey_false (d : List (String × Val)) (k : String)
    (v : Val) (h : dictHasKey d k = false) : dictGet d k v = v := by
  unfold dictGet
  unfold dictHasKey at h
  rw [List.find?_eq_none.mpr]
  intro p hp
  have := List.any_eq_false.mp h p hp
  simpa using this

/-- C5: a `send_message` call with `validate = true` whose message fails
validation returns the `MessageValidationError` outcome and leaves the bus
untouched, whatever the publish step would have done; moreover a content
that is not a mapping always fails validation, and a `TASK_REQUEST` whose
content lacks `task_description` or `parameters` always fails
validation. -/
theorem sendMessage_validation_aborts :
    (∀ (msgId : String) (mt : MessageType) (sender recipient content : Val)
        (publishFails : Bool) (bus : List Message),
      validateMessage ⟨.str msgId, mt, sender, recipient, content⟩ = false →
      sendMessage msgId mt sender recipient content true publishFails bus =
        (.error .validationError, bus)) ∧
    (∀ (msgId : String) (mt : MessageType) (sender recipient content : Val),
      (∀ d, content ≠ .dict d) →
      validateMessage ⟨.str msgId, mt, sender, recipient, content⟩ = false) ∧
    (∀ (msgId : String) (sender recipient : Val)
        (c : List (String × Val)),
      dictHasKey c "task_description" = false ∨
        dictHasKey c "parameters" = false →
      validateMessage ⟨.str msgId, .taskRequest, sender, recipient,
        .dict c⟩ = false) := by
  refine ⟨?_, ?_, ?_⟩
  · intro msgId mt sender recipient content publishFails bus hv
    simp [sendMessage, hv]
  · intro msgId mt sender recipient content hc
    cases content with
    | dict d => exact absurd rfl (hc d)
    | str s => cases mt <;> simp [validateMessage, validateFields, dictGet]
    | num q => cases mt <;> simp [validateMessage, validateFields, dictGet]
    | raw s => cases mt <;> simp [validateMessage, validateFields, dictGet]
  · intro msgId sender recipient c hmiss
    have hfail : validateFields c ["task_description"] ["parameters"]
        = false := by
      rcases hmiss with h | h
      · have := dictGet_of_hasKey_false c "task_description" (.raw "missing") h
        simp [validateFields, this]
      · have := dictGet_of_hasKey_false c "parameters" (.raw "missing") h
        simp [validateFields, this]
    simp [validateMessage, hfail]

/-- Witness for `sendMessage_validation_aborts`: a task request whose
content is a plain string is rejected and nothing reaches the bus. -/
theorem sendMessage_validation_aborts_witness :
    sendMessage "m1" .taskRequest (.str "a") (.str "b") (.str "oops")
      true false [] = (.error .validationError, []) :=
  sendMessage_validation_aborts.1 "m1" .taskRequest (.str "a") (.str "b")
    (.str "oops") false [] rfl

/-- Setting a key makes `dictHasKey` true for that key. -/
theorem dictHasKey_dictSet_self (d : List (String × Val)) (k : String)
    (v : Val) : dictHasKey (dictSet d k v) k = true := by
  induction d with
  | nil => simp [dictSet, dictHasKey]
  | cons p rest ih =>
    obtain ⟨k', v'⟩ := p
    by_cases h : k' == k
    · simp [dictSet, dictHasKey, h]
    · simp only [dictSet, dictHasKey] at *
      simp [h, ih]

/-- Setting a different key leaves `dictHasKey` unchanged. -/
theorem dictHasKey_dictSet_ne (d : List (String × Val)) (k k' : String)
    (v : Val) (h : (k' == k) = false) :
    dictHasKey (dictSet d k' v) k = dictHasKey d k := by
  induction d with
  | nil => simp [dictSet, dictHasKey, h]
  | cons p rest ih =>
    obtain ⟨a, b⟩ := p
    by_cases ha : a == k'
    · simp [dictSet, dictHasKey, ha]
    · simp only [dictSet, dictHasKey] at *
      simp [ha, ih]

/-- Filling in a missing `"status"` key guarantees its presence. -/
theorem dictHasKey_after_status_fill (r : List (String × Val)) :
    dictHasKey (if dictHasKey r "status" then r
      else dictSet r "status" (.str "success")) "status" = true := by
  by_cases h : dictHasKey r "status" = true
  · simp [h]
  · simp only [Bool.not_eq_true] at h
    simp [h, dictHasKey_dictSet_self]

/-- C9: `_execute_step` is total at its interface: the returned value is
always a dictionary with a `"status"` key; an exception from agent
selection or from `agent.execute` is caught and turned into a result with
status `"error"` carrying the exception text; a non-dictionary agent
result is wrapped under `"output"` and given status `"success"`; a
dictionary result that omits `"status"` gets status `"success"` added. -/
theorem executeStep_total_interface {α : Type} (taskName : String)
    (selection : Except String (Option α))
    (agentExec : α → Except String Val) (execTime : ℚ) :
    (∃ d, executeStep taskName selection agentExec execTime = .dict d ∧
      dictHasKey d "status" = true) ∧
    (∀ e, selection = .error e →
      executeStep taskName selection agentExec execTime =
        stepErrorResult taskName e) ∧
    (∀ a e, selection = .ok (some a) → agentExec a = .error e →
      executeStep taskName selection agentExec execTime =
        stepErrorResult taskName e) ∧
    (∀ a v, selection = .ok (some a) → agentExec a = .ok v →
      (∀ d, v ≠ .dict d) →
      executeStep taskName selection agentExec execTime =
        .dict [("output", v),
               ("metrics", .dict [("execution_time", .num execTime)]),
               ("status", .str "success")]) ∧
    (∀ a d m, selection = .ok (some a) → agentExec a = .ok (.dict d) →
      dictGet d "metrics" (.dict []) = .dict m →
      dictHasKey d "status" = false →
      executeStep taskName selection agentExec execTime =
        .dict (dictSet
          (dictSet d "metrics"
            (.dict (dictSet m "execution_time" (.num execTime))))
          "status" (.str "success"))) := by
  refine ⟨?_, ?_, ?_, ?_, ?_⟩
  · cases selection with
    | error e =>
      exact ⟨[("status", .str "error"), ("error", .str e),
        ("task_name", .str taskName)], rfl, rfl⟩
    | ok sel =>
      cases sel with
      | none =>
        exact ⟨[("status", .str "error"),
          ("error", .str ("No suitable agent found for task: " ++ taskName))],
          rfl, rfl⟩
      | some a =>
        cases hx : agentExec a with
        | error e =>
          refine ⟨[("status", .str "error"), ("error", .str e),
            ("task_name", .str taskName)], ?_, rfl⟩
          simp [executeStep, hx, stepErrorResult]
        | ok v =>
          cases v with
          | dict d =>
            simp only [executeStep, hx]
            cases hm : dictGet d "metrics" (.dict []) with
            | dict m =>
              exact ⟨_, rfl, dictHasKey_after_status_fill _⟩
            | str s =>
              exact ⟨[("status", .str "error"),
                ("error", .str "object does not support item assignment"),
                ("task_name", .str taskName)], rfl, rfl⟩
            | num q =>
              exact ⟨[("status", .str "error"),
                ("error", .str "object does not support item assignment"),
                ("task_name", .str taskName)], rfl, rfl⟩
            | raw s =>
              exact ⟨[("status", .str "error"),
                ("error", .str "object does not support item assignment"),
                ("task_name", .str taskName)], rfl, rfl⟩
          | str s =>
            simp only [executeStep, hx]
            exact ⟨_, rfl, dictHasKey_after_status_fill _⟩
          | num q =>
            simp only [executeStep, hx]
            exact ⟨_, rfl, dictHasKey_after_status_fill _⟩
          | raw s =>
            simp only [executeStep, hx]
            exact ⟨_, rfl, dictHasKey_after_status_fill _⟩
  · intro e he
    subst he
    rfl
  · intro a e hsel hx
    subst hsel
    simp [executeStep, hx]
  · intro a v hsel hx hnd
    subst hsel
    cases v with
    | dict d => exact absurd rfl (hnd d)
    | str s => simp only [executeStep, hx]; rfl
    | num q => simp only [executeStep, hx]; rfl
    | raw s => simp only [executeStep, hx]; rfl
  · intro a d m hsel hx hm hs
    subst hsel
    simp only [executeStep, hx]
    rw [hm]
    have hkey : dictHasKey
        (dictSet d "metrics"
          (.dict (dictSet m "execution_time" (.num execTime))))
        "status" = false := by
      rw [dictHasKey_dictSet_ne _ _ _ _ (by decide)]
      exact hs
    simp [hkey]

/-- Witness for `executeStep_total_interface`: a selection that raises is
converted into the error dictionary. -/
theorem executeStep_total_interface_witness :
    executeStep "t" (Except.error "boom")
      (fun _ : Unit => Except.ok (Val.dict [])) 0 =
      stepErrorResult "t" "boom" :=
  (executeStep_total_interface "t" (Except.error "boom")
    (fun _ : Unit => Except.ok (Val.dict [])) 0).2.1 "boom" rfl

/-- Names already recorded as failed stay failed through any batch of step
executions. -/
theorem processSteps_failed_mono (evalCond : ExecState → String → Bool)
    (execStatus : ExecState → WorkflowStep → String) :
    ∀ (l : List WorkflowStep) (st : ExecState) (x : String),
      x ∈ st.failed → x ∈ (processSteps evalCond execStatus l st).failed := by
  intro l
  induction l with
  | nil => intro st x hx; exact hx
  | cons step rest ih =>
    intro st x hx
    rw [processSteps]
    split_ifs with h1 h2
    · exact ih _ _ hx
    · exact ih _ _ hx
    · exact ih _ _ (by simp [hx])

/-- C4: when no registered agent matches, the selector returns `none`
without raising, `select_agent_for_task` then returns `none`, the
executor's step execution yields a result with status `"error"` whose
message "No suitable agent found for task: ..." contains (up to ASCII
case) the phrase "no suitable agent", and a step whose result status is
not `"success"` is recorded in `failed_steps`. -/
theorem no_suitable_agent_flow :
    (∀ (canServe : String → Bool) (agents : List String),
      (∀ a ∈ agents, canServe a = false) →
      selectAgent canServe agents = none) ∧
    (∀ (registry : List (String × Unit)),
      selectAgentForTask none registry = none) ∧
    (∀ (taskName : String) (agentExec : Unit → Except String Val)
        (execTime : ℚ),
      executeStep taskName (.ok none) agentExec execTime =
        .dict [("status", .str "error"),
          ("error", .str ("No suitable agent found for task: " ++ taskName))] ∧
      ("No suitable agent found for task: " ++ taskName =
        "No suitable agent" ++ (" found for task: " ++ taskName)) ∧
      "No suitable agent".data.map Char.toLower =
        "no suitable agent".data) ∧
    (∀ (evalCond : ExecState → String → Bool)
        (execStatus : ExecState → WorkflowStep → String)
        (step : WorkflowStep) (rest : List WorkflowStep) (st : ExecState),
      condTruthy step.condition = false →
      execStatus st step ≠ "success" →
      step.name ∈ (processSteps evalCond execStatus (step :: rest) st).failed) := by
  refine ⟨?_, ?_, ?_, ?_⟩
  · intro canServe agents h
    exact List.find?_eq_none.mpr fun a ha => by simp [h a ha]
  · intro registry
    rfl
  · intro taskName agentExec execTime
    refine ⟨rfl, ?_, by decide⟩
    rw [← String.append_assoc]
    rfl
  · intro evalCond execStatus step rest st hcond hstatus
    have hbeq : (execStatus st step == "success") = false := by
      simpa using hstatus
    rw [processSteps, hcond]
    simp only [Bool.false_and, Bool.false_eq_true, if_false, hbeq]
    refine processSteps_failed_mono evalCond execStatus rest _ step.name ?_
    simp

/-- Witness for `no_suitable_agent_flow`: an empty capability match over
two agents selects nobody, and an erroring step lands in `failed_steps`. -/
theorem no_suitable_agent_flow_witness :
    selectAgent (fun _ => false) ["agent1", "agent2"] = none ∧
    "s1" ∈ (processSteps (fun _ _ => true) (fun _ _ => "error")
      [⟨"s1", [], false, none⟩] initialExecState).failed :=
  ⟨no_suitable_agent_flow.1 _ _ (fun _ _ => rfl),
   no_suitable_agent_flow.2.2.2 _ _ ⟨"s1", [], false, none⟩ []
     initialExecState rfl (by decide)⟩

/-- `processSteps` never touches the iteration counter. -/
theorem processSteps_iterations_eq (evalCond : ExecState → String → Bool)
    (execStatus : ExecState → WorkflowStep → String) :
    ∀ (l : List WorkflowStep) (st : ExecState),
      (processSteps evalCond execStatus l st).iterations = st.iterations := by
  intro l
  induction l with
  | nil => intro st; rfl
  | cons step rest ih =>
    intro st
    rw [processSteps]
    split_ifs <;> exact ih _

/-- Every outcome of one inner-loop iteration carries an iteration counter
one above the input state's. -/
theorem innerLoopIter_iterations (plan : List WorkflowStep)
    (evalCond : ExecState → String → Bool)
    (execStatus : ExecState → WorkflowStep → String) (st : ExecState) :
    (innerLoopIter plan evalCond execStatus st).elim
      ExecState.iterations ExecState.iterations = st.iterations + 1 := by
  simp only [innerLoopIter]
  split_ifs <;> simp [processSteps_iterations_eq]

/-- The fuelled loop never pushes the iteration counter past the cap. -/
theorem innerLoop_iterations_le (plan : List WorkflowStep)
    (evalCond : ExecState → String → Bool)
    (execStatus : ExecState → WorkflowStep → String) :
    ∀ (fuel : Nat) (st : ExecState),
      st.iterations ≤ maxInnerLoopIterations →
      (innerLoop plan evalCond execStatus fuel st).iterations ≤
        maxInnerLoopIterations := by
  intro fuel
  induction fuel with
  | zero => intro st h; exact h
  | succ fuel ih =>
    intro st h
    rw [innerLoop]
    split_ifs with hguard
    · have hiter := innerLoopIter_iterations plan evalCond execStatus st
      cases hx : innerLoopIter plan evalCond execStatus st with
      | inl final =>
        rw [hx] at hiter
        simp only [Sum.elim_inl] at hiter
        show final.iterations ≤ maxInnerLoopIterations
        omega
      | inr st' =>
        rw [hx] at hiter
        simp only [Sum.elim_inr] at hiter
        show (innerLoop plan evalCond execStatus fuel st').iterations ≤
          maxInnerLoopIterations
        exact ih st' (by omega)
    · exact h

/-- A concrete first iteration: a two-step plan whose first step fails;
the iteration ends with a failure and completion ratio `0`, yet the loop
continues rather than breaking for replanning, because the
`inner_loop_iterations > 1` guard is false on the first iteration. -/
theorem iterOneConcrete :
    innerLoopIter [⟨"s1", [], false, none⟩, ⟨"s2", ["s1"], false, none⟩]
      (fun _ _ => true) (fun _ _ => "error") initialExecState =
      Sum.inr { completed := [], failed := ["s1"], skipped := [],
                iterations := 1 } := by
  simp only [innerLoopIter, initialExecState]
  norm_num [getExecutableSteps, processSteps, condTruthy, reflectionThreshold]
  rw [if_neg (by decide : ¬("error" = "success"))]
  norm_num

/-- C8: the inner loop performs at most `max_inner_loop_iterations`
(default 10) iterations, and an iteration whose counter exceeds twice the
number of steps breaks out of the loop, so the loop always terminates. -/
theorem inner_loop_iteration_bounds :
    (∀ (plan : List WorkflowStep) (evalCond : ExecState → String → Bool)
        (execStatus : ExecState → WorkflowStep → String),
      (runInnerLoop plan evalCond execStatus).iterations ≤
        maxInnerLoopIterations) ∧
    maxInnerLoopIterations = 10 ∧
    (∀ (plan : List WorkflowStep) (evalCond : ExecState → String → Bool)
        (execStatus : ExecState → WorkflowStep → String) (st : ExecState),
      st.iterations + 1 > plan.length * 2 →
      (innerLoopIter plan evalCond execStatus st).isLeft = true) := by
  refine ⟨?_, rfl, ?_⟩
  · intro plan evalCond execStatus
    exact innerLoop_iterations_le plan evalCond execStatus
      maxInnerLoopIterations initialExecState (by simp [initialExecState])
  · intro plan evalCond execStatus st hgt
    simp only [innerLoopIter]
    split_ifs with h1 h2 h3 h4 <;> simp_all

/-- Witness for `inner_loop_iteration_bounds` on the empty plan. -/
theorem inner_loop_iteration_bounds_witness :
    (innerLoopIter ([] : List WorkflowStep) (fun _ _ => true)
      (fun _ _ => "success") initialExecState).isLeft = true :=
  inner_loop_iteration_bounds.2.2 [] (fun _ _ => true) (fun _ _ => "success")
    initialExecState (by norm_num [initialExecState])

/-- C3 counterexample: on the very first inner-loop iteration the executor
does not break for replanning even though a step has failed and the
completion ratio `0` is below the reflection threshold — the loop
continues (`Sum.inr`), refuting the claim for first iterations. -/
theorem inner_loop_no_break_on_first_iteration :
    innerLoopIter [⟨"s1", [], false, none⟩, ⟨"s2", ["s1"], false, none⟩]
      (fun _ _ => true) (fun _ _ => "error") initialExecState =
      Sum.inr { completed := [], failed := ["s1"], skipped := [],
                iterations := 1 } ∧
    (["s1"] : List String) ≠ [] ∧
    ((0 : ℚ) / 2 < reflectionThreshold) :=
  ⟨iterOneConcrete, by decide, by norm_num [reflectionThreshold]⟩

/-- C3 (amended): an inner-loop iteration that ends with at least one
failed step and a completion ratio below the reflection threshold can only
continue to another iteration if it was the first iteration; from the
second iteration on, such an iteration always breaks out of the loop for
replanning. -/
theorem inner_loop_breaks_for_replanning_after_first_iteration (plan : List WorkflowStep)
    (evalCond : ExecState → String → Bool)
    (execStatus : ExecState → WorkflowStep → String)
    (st st' : ExecState)
    (h : innerLoopIter plan evalCond execStatus st = Sum.inr st')
    (hfail : st'.failed ≠ [])
    (hratio : (st'.completed.length : ℚ) / (plan.length : ℚ) <
      reflectionThreshold) :
    st.iterations = 0 := by
  simp only [innerLoopIter] at h
  split_ifs at h with h1 h2 h3 h4 <;> injection h with h
  have hit : st'.iterations = st.iterations + 1 := by
    rw [← h]
    exact processSteps_iterations_eq _ _ _ _
  rw [h] at h4
  have hle : ¬ (st'.iterations > 1) := fun hgt => h4 ⟨hfail, hratio, hgt⟩
  omega

/-- Witness for
`inner_loop_breaks_for_replanning_after_first_iteration` on the concrete
first-iteration run. -/
theorem inner_loop_breaks_for_replanning_witness :
    initialExecState.iterations = 0 :=
  inner_loop_breaks_for_replanning_after_first_iteration
    [⟨"s1", [], false, none⟩, ⟨"s2", ["s1"], false, none⟩]
    (fun _ _ => true) (fun _ _ => "error") initialExecState
    { completed := [], failed := ["s1"], skipped := [], iterations := 1 }
    iterOneConcrete (by decide) (by norm_num [reflectionThreshold])

/-- The step-availability filter agrees with its set-theoretic reading. -/
theorem getExecutableSteps_mem (steps : List WorkflowStep)
    (completedSteps failedSteps : List String) (s : WorkflowStep) :
    s ∈ getExecutableSteps steps completedSteps failedSteps ↔
      s ∈ steps ∧ s.name ∉ completedSteps ∧ s.name ∉ failedSteps ∧
      (∀ d ∈ s.dependencies, d ∈ completedSteps) ∧
      (∀ d ∈ s.dependencies, d ∉ failedSteps) := by
  simp [getExecutableSteps, List.mem_filter, List.elem_iff]
  tauto

/-- Run-long bookkeeping invariant of the executor's inner loop. -/
def ExecInv (plan : List WorkflowStep) (st : ExecState) : Prop :=
  (∀ x ∈ st.completed, x ∉ st.failed) ∧
  (∀ s ∈ plan, (s.name ∈ st.completed ∨ s.name ∈ st.failed) →
    ∀ d ∈ s.dependencies, d ∈ st.completed)

theorem processSteps_inv (plan : List WorkflowStep)
    (hplan : (plan.map WorkflowStep.name).Nodup)
    (evalCond : ExecState → String → Bool)
    (execStatus : ExecState → WorkflowStep → String) :
    ∀ (l : List WorkflowStep) (st : ExecState),
      ExecInv plan st →
      (∀ e ∈ l, e ∈ plan ∧ e.name ∉ st.completed ∧ e.name ∉ st.failed ∧
        ∀ d ∈ e.dependencies, d ∈ st.completed) →
      (l.map WorkflowStep.name).Nodup →
      ExecInv plan (processSteps evalCond execStatus l st) := by
  intro l
  induction l with
  | nil => intro st hinv _ _; exact hinv
  | cons e rest ih =>
    intro st hinv hpre hnodup
    obtain ⟨hel, henc, henf, hedeps⟩ := hpre e (List.mem_cons_self _ _)
    have hrest_ne : ∀ x ∈ rest, x.name ≠ e.name := by
      intro x hx
      simp only [List.map_cons, List.nodup_cons] at hnodup
      intro hxe
      exact hnodup.1 (hxe ▸ List.mem_map_of_mem WorkflowStep.name hx)
    have hnodup' : (rest.map WorkflowStep.name).Nodup := by
      simp only [List.map_cons, List.nodup_cons] at hnodup
      exact hnodup.2
    rw [processSteps]
    split_ifs with hskip hsucc
    · -- skipped: completed/failed unchanged
      refine ih _ ⟨hinv.1, hinv.2⟩ ?_ hnodup'
      intro x hx
      exact hpre x (List.mem_cons_of_mem _ hx)
    · -- completed: e.name appended to completed
      refine ih _ ⟨?_, ?_⟩ ?_ hnodup'
      · intro x hx
        rcases List.mem_append.mp hx with hx | hx
        · exact hinv.1 x hx
        · rw [List.mem_singleton.mp hx]
          exact henf
      · intro s hs hmem d hd
        rcases hmem with hmem | hmem
        · rcases List.mem_append.mp hmem with hmem | hmem
          · exact List.mem_append_left _ (hinv.2 s hs (Or.inl hmem) d hd)
          · have hse : s = e := List.inj_on_of_nodup_map hplan hs hel
              (List.mem_singleton.mp hmem)
            subst hse
            exact List.mem_append_left _ (hedeps d hd)
        · exact List.mem_append_left _ (hinv.2 s hs (Or.inr hmem) d hd)
      · intro x hx
        obtain ⟨hxl, hxnc, hxnf, hxdeps⟩ := hpre x (List.mem_cons_of_mem _ hx)
        refine ⟨hxl, ?_, hxnf, ?_⟩
        · intro hmem
          rcases List.mem_append.mp hmem with hmem | hmem
          · exact hxnc hmem
          · exact hrest_ne x hx (List.mem_singleton.mp hmem)
        · intro d hd
          exact List.mem_append_left _ (hxdeps d hd)
    · -- failed: e.name appended to failed
      refine ih _ ⟨?_, ?_⟩ ?_ hnodup'
      · intro x hx hmem
        rcases List.mem_append.mp hmem with hf | hf
        · exact hinv.1 x hx hf
        · rw [List.mem_singleton.mp hf] at hx
          exact henc hx
      · intro s hs hmem d hd
        rcases hmem with hmem | hmem
        · exact hinv.2 s hs (Or.inl hmem) d hd
        · rcases List.mem_append.mp hmem with hmem | hmem
          · exact hinv.2 s hs (Or.inr hmem) d hd
          · have hse : s = e := List.inj_on_of_nodup_map hplan hs hel
              (List.mem_singleton.mp hmem)
            subst hse
            exact hedeps d hd
      · intro x hx
        obtain ⟨hxl, hxnc, hxnf, hxdeps⟩ := hpre x (List.mem_cons_of_mem _ hx)
        refine ⟨hxl, hxnc, ?_, hxdeps⟩
        intro hmem
        rcases List.mem_append.mp hmem with hmem | hmem
        · exact hxnf hmem
        · exact hrest_ne x hx (List.mem_singleton.mp hmem)


/-- One inner-loop iteration preserves the bookkeeping invariant. -/
theorem innerLoopIter_inv (plan : List WorkflowStep)
    (hplan : (plan.map WorkflowStep.name).Nodup)
    (evalCond : ExecState → String → Bool)
    (execStatus : ExecState → WorkflowStep → String) (st : ExecState)
    (hinv : ExecInv plan st) :
    ExecInv plan ((innerLoopIter plan evalCond execStatus st).elim id id) := by
  simp only [innerLoopIter]
  split_ifs with h1 h2 h3 h4
  · exact hinv
  · exact hinv
  · exact hinv
  all_goals {
    simp only [Sum.elim_inl, Sum.elim_inr, id]
    refine processSteps_inv plan hplan evalCond execStatus _ _ hinv ?_ ?_
    · intro e he
      have hmem := (getExecutableSteps_mem plan st.completed st.failed e).mp he
      exact ⟨hmem.1, hmem.2.1, hmem.2.2.1, hmem.2.2.2.1⟩
    · have hsub : List.Sublist
          (getExecutableSteps plan st.completed st.failed) plan :=
        List.filter_sublist plan
      exact hplan.sublist (hsub.map WorkflowStep.name)
  }

/-- The whole fuelled loop preserves the bookkeeping invariant. -/
theorem innerLoop_inv (plan : List WorkflowStep)
    (hplan : (plan.map WorkflowStep.name).Nodup)
    (evalCond : ExecState → String → Bool)
    (execStatus : ExecState → WorkflowStep → String) :
    ∀ (fuel : Nat) (st : ExecState), ExecInv plan st →
      ExecInv plan (innerLoop plan evalCond execStatus fuel st) := by
  intro fuel
  induction fuel with
  | zero => intro st hinv; exact hinv
  | succ fuel ih =>
    intro st hinv
    rw [innerLoop]
    split_ifs with hguard
    · have hstep := innerLoopIter_inv plan hplan evalCond execStatus st hinv
      cases hx : innerLoopIter plan evalCond execStatus st with
      | inl final =>
        rw [hx] at hstep
        exact hstep
      | inr st' =>
        rw [hx] at hstep
        exact ih st' hstep
    · exact hinv

/-- C1: `_get_executable_steps` returns exactly the steps not already
completed or failed whose dependencies are all completed and none failed;
consequently, over any execution of the inner loop on a plan with distinct
step names, a step one of whose dependencies ends up failed is never
executed: its name lands neither in `completed_steps` nor in
`failed_steps`. -/
theorem executable_steps_spec_and_failed_dependency_safety :
    (∀ (steps : List WorkflowStep) (completedSteps failedSteps : List String)
        (s : WorkflowStep),
      s ∈ getExecutableSteps steps completedSteps failedSteps ↔
        s ∈ steps ∧ s.name ∉ completedSteps ∧ s.name ∉ failedSteps ∧
        (∀ d ∈ s.dependencies, d ∈ completedSteps) ∧
        (∀ d ∈ s.dependencies, d ∉ failedSteps)) ∧
    (∀ (plan : List WorkflowStep) (evalCond : ExecState → String → Bool)
        (execStatus : ExecState → WorkflowStep → String),
      (plan.map WorkflowStep.name).Nodup →
      ∀ s ∈ plan, ∀ d ∈ s.dependencies,
        d ∈ (runInnerLoop plan evalCond execStatus).failed →
        s.name ∉ (runInnerLoop plan evalCond execStatus).completed ∧
        s.name ∉ (runInnerLoop plan evalCond execStatus).failed) := by
  refine ⟨getExecutableSteps_mem, ?_⟩
  intro plan evalCond execStatus hplan s hs d hd hdf
  have hinv : ExecInv plan (runInnerLoop plan evalCond execStatus) :=
    innerLoop_inv plan hplan evalCond execStatus maxInnerLoopIterations
      initialExecState ⟨by simp [initialExecState], by simp [initialExecState]⟩
  constructor
  · intro hc
    have hdc := hinv.2 s hs (Or.inl hc) d hd
    exact hinv.1 d hdc hdf
  · intro hf
    have hdc := hinv.2 s hs (Or.inr hf) d hd
    exact hinv.1 d hdc hdf

/-- A concrete second iteration of the same run: the step depending on the
failed one is not executable, so the loop breaks with nothing executed. -/
theorem iterTwoConcrete :
    innerLoopIter [⟨"s1", [], false, none⟩, ⟨"s2", ["s1"], false, none⟩]
      (fun _ _ => true) (fun _ _ => "error")
      { completed := [], failed := ["s1"], skipped := [], iterations := 1 } =
      Sum.inl { completed := [], failed := ["s1"], skipped := [],
                iterations := 2 } := by
  simp only [innerLoopIter]
  norm_num [getExecutableSteps]

/-- The whole inner loop on the concrete two-step plan: the dependent step
is never executed. -/
theorem runInnerLoopConcrete :
    runInnerLoop [⟨"s1", [], false, none⟩, ⟨"s2", ["s1"], false, none⟩]
      (fun _ _ => true) (fun _ _ => "error") =
      { completed := [], failed := ["s1"], skipped := [], iterations := 2 } := by
  rw [runInnerLoop]
  show innerLoop _ _ _ 10 initialExecState = _
  rw [innerLoop]
  rw [if_pos (by decide : initialExecState.iterations < maxInnerLoopIterations)]
  rw [iterOneConcrete]
  show innerLoop _ _ _ 9 _ = _
  rw [innerLoop]
  rw [if_pos (by decide :
    ({ completed := [], failed := ["s1"], skipped := [],
       iterations := 1 } : ExecState).iterations < maxInnerLoopIterations)]
  rw [iterTwoConcrete]

/-- Witness for `executable_steps_spec_and_failed_dependency_safety`: in
the concrete run where `s1` fails, `s2` (which depends on `s1`) ends up
neither completed nor failed. -/
theorem executable_steps_failed_dependency_witness :
    "s2" ∉ (runInnerLoop [⟨"s1", [], false, none⟩, ⟨"s2", ["s1"], false, none⟩]
      (fun _ _ => true) (fun _ _ => "error")).completed ∧
    "s2" ∉ (runInnerLoop [⟨"s1", [], false, none⟩, ⟨"s2", ["s1"], false, none⟩]
      (fun _ _ => true) (fun _ _ => "error")).failed :=
  executable_steps_spec_and_failed_dependency_safety.2
    [⟨"s1", [], false, none⟩, ⟨"s2", ["s1"], false, none⟩]
    (fun _ _ => true) (fun _ _ => "error") (by decide)
    ⟨"s2", ["s1"], false, none⟩ (by decide) "s1" (by decide)
    (by rw [runInnerLoopConcrete]; decide)

/-- Witness for `majorityTally_first_registered_max` on the options
`[X, Y]` with votes `[X, Y, X]`. -/
theorem majorityTally_first_registered_max_witness :
    ∃ l1 l2, (["X", "Y"] : List String) = l1 ++ "X" :: l2 ∧
      (∀ o ∈ (["X", "Y"] : List String),
        (["X", "Y", "X"] : List String).count o ≤
          (["X", "Y", "X"] : List String).count "X") ∧
      (∀ o ∈ l1, (["X", "Y", "X"] : List String).count o <
          (["X", "Y", "X"] : List String).count "X") :=
  (majorityTally_first_registered_max.1 ["X", "Y"] ["X", "Y", "X"]).2 "X"
    (by decide)

end AgenticKernel
